import Mathlib

/-!
Verification of the dadi/api-filestore LokiJS adapter (`src/lib/index.js`).

We shallowly embed the JavaScript values handled by the adapter and translate
the query-normalisation, projection, sort, insert and drop operations into
Lean functions, then prove the specification's testable properties about them.
-/

/-- A JavaScript value as manipulated by the adapter: `null`, `undefined`,
booleans, numbers (modelled as integers; the adapter only compares numbers to
small integer literals), strings, regular-expression literals (source and
flags), plain objects (ordered field lists, as JS preserves insertion order
for string keys) and arrays. -/
inductive JSVal where
  | null : JSVal
  | undefined : JSVal
  | bool : Bool → JSVal
  | num : Int → JSVal
  | str : String → JSVal
  | regex : String → String → JSVal
  | obj : List (String × JSVal) → JSVal
  | arr : List JSVal → JSVal

/-- An object's field list. -/
abbrev JSObj := List (String × JSVal)

/-- JS truthiness: `undefined`, `null`, `false`, `0` and `""` are falsy;
every other value (all objects and arrays included) is truthy. -/
def truthy : JSVal → Bool
  | .null => false
  | .undefined => false
  | .bool b => b
  | .num n => n != 0
  | .str s => s != ""
  | _ => true

/-- JS strict equality `v === n` against a number literal: true only for a
number with the same value. -/
def strictEqNum (v : JSVal) (n : Int) : Bool :=
  match v with
  | .num m => m == n
  | _ => false

/-- JS strict equality `v === undefined`. -/
def strictEqUndefined (v : JSVal) : Bool :=
  match v with
  | .undefined => true
  | _ => false

example : truthy (.obj []) = true := by decide
example : truthy (.num 0) = false := by decide
example : strictEqNum (.bool true) 1 = false := by decide

/-- Decimal digit parser over a character list (structural, so that concrete
instances evaluate by `rfl`). -/
def parseNatAux : List Char → Nat → Option Nat
  | [], acc => some acc
  | c :: rest, acc =>
    if '0' ≤ c ∧ c ≤ '9' then parseNatAux rest (acc * 10 + (c.toNat - '0'.toNat))
    else none

/-- Parse a non-empty all-digit string as a natural number. -/
def parseNat? (s : String) : Option Nat :=
  match s.toList with
  | [] => none
  | cs => parseNatAux cs 0

/-- A canonical array index: the string must be the decimal spelling of a
natural number (JS array access `xs["01"]` does not hit index 1). -/
def canonIndex (s : String) : Option Nat :=
  match parseNat? s with
  | some n => if toString n = s then some n else none
  | none => none

/-- `Object.keys`: own enumerable keys. Objects yield their field names in
insertion order, arrays and strings their index strings; primitives have
none. (JS's reordering of integer-like object keys and prototype-chain
properties are not modelled.) -/
def jsKeys : JSVal → List String
  | .obj fs => fs.map Prod.fst
  | .arr xs => (List.range xs.length).map (fun i => toString i)
  | .str s => (List.range s.length).map (fun i => toString i)
  | _ => []

/-- Property read `v[k]`, giving `undefined` when absent. Object lookup finds
the (unique in JS) field; arrays and strings answer canonical index keys. -/
def jsGet (v : JSVal) (k : String) : JSVal :=
  match v with
  | .obj fs => (fs.lookup k).getD .undefined
  | .arr xs =>
    match canonIndex k with
    | some n => (xs.get? n).getD .undefined
    | none => .undefined
  | .str s =>
    match canonIndex k with
    | some n =>
      match s.toList.get? n with
      | some c => .str (String.mk [c])
      | none => .undefined
    | none => .undefined
  | _ => .undefined

/-- Property write `o[k] = v` on a plain object: update the existing slot in
place (preserving field order) or append a new one. -/
def setField : JSObj → String → JSVal → JSObj
  | [], k, v => [(k, v)]
  | (k', v') :: rest, k, v =>
    if k' = k then (k, v) :: rest else (k', v') :: setField rest k v

/-- JS string coercion of a value used as a property key. -/
def jsPropKey : JSVal → String
  | .null => "null"
  | .undefined => "undefined"
  | .bool b => if b then "true" else "false"
  | .num n => toString n
  | .str s => s
  | .regex src flags => "/" ++ src ++ "/" ++ flags
  | .obj _ => "[object Object]"
  | .arr _ => ""

/-- The `(key, value)` pairs enumerated by `Object.keys(v)` together with the
corresponding reads `v[key]`; empty for values without own enumerable keys. -/
def jsEntries : JSVal → List (String × JSVal)
  | .obj fs => fs
  | .arr xs => xs.enum.map (fun p => (toString p.1, p.2))
  | v => (jsKeys v).map (fun k => (k, jsGet v k))

/-! ## Query Normalizer — `DataStore.prototype.prepareQuery`

Source, `src/lib/index.js:254-317`: first rewrite each top-level value
(regular expressions to `{$regex: [source, flags]}`; operator sub-mappings
whose `$ne` operand is `null` to `{$ne: undefined}`; a literal `null` to
`{$exists: false}`), then expand the mapping into one expression object per
field/operator pair and wrap in `$and` when more than one results. -/

/-- `typeof v === 'object' && v`: true exactly for objects, arrays and
regular expressions (`null` has `typeof 'object'` but is falsy). At the
points where the source evaluates this, regular expressions have already
been rewritten away. -/
def isObjectTruthy : JSVal → Bool
  | .obj _ => true
  | .arr _ => true
  | .regex _ _ => true
  | _ => false

/-- The per-field rewrite pass of `prepareQuery` (`src/lib/index.js:255-278`):
a regex literal becomes `{$regex: [source, flags]}` (a fresh `RegExp` copy
preserves source and flags); an object whose `$ne` operand is `null` is
replaced whole by `{$ne: undefined}`; a literal `null` becomes
`{$exists: false}`; everything else is untouched (array values have only
index keys, so the `$ne` scan never fires on them). -/
def rewriteValue : JSVal → JSVal
  | .regex src flags => .obj [("$regex", .arr [.str src, .str flags])]
  | .obj fs =>
    match fs.lookup "$ne" with
    | some .null => .obj [("$ne", .undefined)]
    | _ => .obj fs
  | .null => .obj [("$exists", .bool false)]
  | v => v

/-- The rewrite pass applied to every field of the query. -/
def rewriteQuery (q : JSObj) : JSObj :=
  q.map (fun p => (p.1, rewriteValue p.2))

/-- Expansion of one (already rewritten) field (`src/lib/index.js:291-307`):
a truthy object value produces one `{field: {operator: operand}}` expression
per key; any other value produces the single `{field: value}` expression. -/
def expandField (field : String) (v : JSVal) : List JSVal :=
  if isObjectTruthy v then
    (jsEntries v).map (fun p => JSVal.obj [(field, JSVal.obj [p])])
  else
    [JSVal.obj [(field, v)]]

/-- All expressions produced from a query, one per field/operator pair, in
field order then operator order. -/
def prepareQueryExpressions (q : JSObj) : List JSVal :=
  (rewriteQuery q).flatMap (fun p => expandField p.1 p.2)

/-- `DataStore.prototype.prepareQuery`: rewrite, expand, and wrap in `$and`
when more than one expression results; otherwise return the (rewritten)
query object itself. -/
def prepareQuery (q : JSObj) : JSVal :=
  let q' := rewriteQuery q
  let expressions := q'.flatMap (fun p => expandField p.1 p.2)
  if 1 < expressions.length then
    .obj [("$and", .arr expressions)]
  else
    .obj q'

example :
    prepareQuery [("fieldOne", .num 1), ("fieldTwo", .obj [("$gt", .num 1), ("$lt", .num 10)])] =
      .obj [("$and", .arr [.obj [("fieldOne", .num 1)],
        .obj [("fieldTwo", .obj [("$gt", .num 1)])],
        .obj [("fieldTwo", .obj [("$lt", .num 10)])]])] := rfl

example : prepareQuery [("f", .regex "abc" "i")] =
    .obj [("f", .obj [("$regex", .arr [.str "abc", .str "i"])])] := rfl

example : prepareQuery [("f", .null)] = .obj [("f", .obj [("$exists", .bool false)])] := rfl

example : prepareQuery [] = .obj [] := rfl

/-! ## Projection Engine — `DataStore.prototype.applyFieldsFilterToResults`
and `DataStore.prototype.convertFieldsProjection`

Source, `src/lib/index.js:74-140`. Fallible paths (the module runs in strict
mode) are modelled with `Except Unit`: recursing into a `null`/`undefined`
document value makes `Object.keys` throw, and walking a dotted projection
path through a truthy primitive makes the subsequent property write throw.
(Property writes on array or regex values, which JS would permit, are also
modelled as errors; no theorem below exercises that corner.) The recursion
is driven by an explicit fuel parameter; every theorem is conditioned on the
call returning a result. -/

/-- JS `field.split('.')` (structural over the character list; the result is
never empty, and empty segments are kept exactly as in JS). -/
def splitDotAux : List Char → List Char → List String
  | [], acc => [String.mk acc.reverse]
  | c :: rest, acc =>
    if c = '.' then String.mk acc.reverse :: splitDotAux rest []
    else splitDotAux rest (c :: acc)

/-- JS `field.split('.')`. -/
def splitDot (s : String) : List String :=
  splitDotAux s.toList []

example : splitDot "field1.subField1" = ["field1", "subField1"] := rfl
example : splitDot "a" = ["a"] := rfl
example : splitDot "" = [""] := rfl

/-- A `reduce` whose body may throw: fold the step over the keys, stopping
at the first exception. -/
def foldFieldsM (step : JSObj → String → Except Unit JSObj) :
    JSObj → List String → Except Unit JSObj
  | acc, [] => .ok acc
  | acc, k :: ks =>
    match step acc k with
    | .error e => .error e
    | .ok acc' => foldFieldsM step acc' ks

/-- A `map` whose body may throw: map the function over the documents,
stopping at the first exception. -/
def mapDocsM (g : JSVal → Except Unit JSObj) : List JSVal → Except Unit (List JSObj)
  | [] => .ok []
  | d :: rest =>
    match g d with
    | .error e => .error e
    | .ok o =>
      match mapDocsM g rest with
      | .error e => .error e
      | .ok os => .ok (o :: os)

/-- One dotted-path insertion of `convertFieldsProjection`
(`src/lib/index.js:127-137`): walk all but the last path segment, descending
into an existing truthy value or inserting a fresh `{}`, then write the value
at the last segment. -/
def insertPath : JSObj → List String → JSVal → Except Unit JSObj
  | tree, [], _ => .ok tree
  | tree, [last], v => .ok (setField tree last v)
  | tree, node :: rest, v =>
    match (tree.lookup node).getD .undefined with
    | .obj sub => (insertPath sub rest v).map (fun sub' => setField tree node (.obj sub'))
    | cur =>
      if truthy cur then .error ()
      else (insertPath [] rest v).map (fun sub' => setField tree node (.obj sub'))

/-- `DataStore.prototype.convertFieldsProjection`: expand every dotted key of
the projection into a nested tree, processing keys in order and merging
trees that share a prefix. -/
def convertFieldsProjection (projection : JSVal) : Except Unit JSObj :=
  foldFieldsM
    (fun result field => insertPath result (splitDot field) (jsGet projection field))
    [] (jsKeys projection)

example : convertFieldsProjection (.obj [("field1.subField1", .num 1)]) =
    .ok [("field1", .obj [("subField1", .num 1)])] := rfl

example : convertFieldsProjection (.obj [("a.b", .num 1), ("a.c", .num 0)]) =
    .ok [("a", .obj [("b", .num 1), ("c", .num 0)])] := rfl

/-- The array form of a fields projection is first flattened into an
inclusion mapping `{name: 1, ...}` (`src/lib/index.js:80-86`); any other
value is used as the projection directly. -/
def flattenProjection : JSVal → JSVal
  | .arr xs => .obj (xs.foldl (fun r fld => setField r (jsPropKey fld) (.num 1)) [])
  | v => v

/-- Whether the projection is applied in exclusion mode: some *top-level*
value of the converted tree is strictly equal to `0`
(`src/lib/index.js:88-90`). -/
def isExclusionProjection (projection : JSObj) : Bool :=
  projection.any (fun p => strictEqNum p.2 0)

/-- The outcome of the body of the per-field reduce in
`applyFieldsFilterToResults` (`src/lib/index.js:92-110`) for one document
key: `some (.ok v)` when the key is kept with value `v`, `none` when it is
dropped, and an error when the nested recursive call (abstracted by `rec`)
throws. The kept/dropped decision depends only on the field name, the
projection and the mode — never on the accumulator. -/
def fieldOutcome (rec : JSVal → JSVal → Except Unit JSVal) (projection : JSObj)
    (isExclusion : Bool) (document : JSVal) (field : String) :
    Option (Except Unit JSVal) :=
  let pv := (projection.lookup field).getD .undefined
  if field = "_id" ∨ (isExclusion ∧ strictEqUndefined pv) ∨
      (¬isExclusion ∧ strictEqNum pv 1) then
    some (.ok (jsGet document field))
  else if ¬isExclusion ∧ truthy pv then
    some (rec pv (jsGet document field))
  else
    none

/-- One step of the per-field reduce: apply the field's outcome to the
accumulated result object. -/
def projStep (rec : JSVal → JSVal → Except Unit JSVal) (projection : JSObj)
    (isExclusion : Bool) (document : JSVal) (result : JSObj) (field : String) :
    Except Unit JSObj :=
  match fieldOutcome rec projection isExclusion document field with
  | some (.ok v) => .ok (setField result field v)
  | some (.error e) => .error e
  | none => .ok result

/-- Projection of a single document (`src/lib/index.js:91-111`): reduce over
`Object.keys(document)` starting from `{}`. `Object.keys` throws on `null`
and `undefined`. -/
def projectDocument (rec : JSVal → JSVal → Except Unit JSVal) (projection : JSObj)
    (isExclusion : Bool) (document : JSVal) : Except Unit JSObj :=
  match document with
  | .null => .error ()
  | .undefined => .error ()
  | _ => foldFieldsM (projStep rec projection isExclusion document) [] (jsKeys document)

/-- `const normalisedDocuments = Array.isArray(documents) ? documents :
[documents]` (`src/lib/index.js:79`). -/
def normaliseDocuments : JSVal → List JSVal
  | .arr xs => xs
  | d => [d]

/-- `return Array.isArray(documents) ? filteredDocuments :
filteredDocuments[0]` (`src/lib/index.js:113`). -/
def rewrapDocuments (documents : JSVal) (filtered : List JSObj) : JSVal :=
  match documents with
  | .arr _ => .arr (filtered.map JSVal.obj)
  | _ => .obj ((filtered.head?).getD [])

/-- `DataStore.prototype.applyFieldsFilterToResults`, with explicit fuel for
the nested-projection recursion. An empty or falsy `fields` returns the
documents unchanged; otherwise the documents (a single document is treated
as a one-element array, and unwrapped again at the end) are rebuilt key by
key under the converted projection. -/
def applyFieldsFilterToResults : Nat → JSVal → JSVal → Except Unit JSVal
  | 0, _, _ => .error ()
  | n + 1, fields, documents =>
    if truthy fields = false then .ok documents
    else if jsKeys fields = [] then .ok documents
    else
      match convertFieldsProjection (flattenProjection fields) with
      | .error e => .error e
      | .ok projection =>
        match mapDocsM
            (projectDocument (applyFieldsFilterToResults n) projection
              (isExclusionProjection projection))
            (normaliseDocuments documents) with
        | .error e => .error e
        | .ok filtered => .ok (rewrapDocuments documents filtered)

example :
    applyFieldsFilterToResults 3 (.arr [.str "a", .str "b"])
      (.obj [("_id", .str "x"), ("a", .num 1), ("b", .num 2), ("c", .num 3)]) =
    .ok (.obj [("_id", .str "x"), ("a", .num 1), ("b", .num 2)]) := rfl

example :
    applyFieldsFilterToResults 3 (.obj [("a", .num 0)])
      (.arr [.obj [("_id", .str "x"), ("a", .num 1), ("b", .num 2)]]) =
    .ok (.arr [.obj [("_id", .str "x"), ("b", .num 2)]]) := rfl

example :
    applyFieldsFilterToResults 3 (.obj [("data.age", .num 0)])
      (.obj [("_id", .str "1"), ("name", .str "X"),
        ("data", .obj [("age", .num 5), ("city", .str "Y")])]) =
    .ok (.obj [("_id", .str "1"), ("data", .obj [("city", .str "Y")])]) := rfl

/-! ## Sort/Paginate Resolver — `DataStore.prototype.getSortParameters`

Source, `src/lib/index.js:322-336`. -/

/-- The resolved sort: a property (a string, or `undefined` when the caller
supplied an empty sort mapping) and a direction. -/
structure SortParams where
  property : JSVal
  descending : Bool

/-- `DataStore.prototype.getSortParameters`: default to the engine's
insertion-sequence field `$loki` ascending; when a truthy `options.sort` is
present, take its first key as the property and compare that key's value
strictly against `-1` for the direction. (An empty sort mapping makes
`Object.keys(options.sort)[0]` come out `undefined`, which then reads the
`"undefined"` property.) -/
def getSortParameters (options : JSVal) : SortParams :=
  let s := jsGet options "sort"
  if truthy s then
    match jsKeys s with
    | k :: _ => ⟨.str k, strictEqNum (jsGet s k) (-1)⟩
    | [] => ⟨.undefined, strictEqNum (jsGet s "undefined") (-1)⟩
  else
    ⟨.str "$loki", false⟩

example : (getSortParameters (.obj [])).property = .str "$loki" := rfl
example : (getSortParameters (.obj [("sort", .obj [("name", .num (-1))])])).descending = true := rfl
example : (getSortParameters (.obj [("sort", .obj [("name", .num 1)])])).descending = false := rfl

/-! ## Collection store — `DataStore.prototype.dropDatabase` and
`DataStore.prototype.insert`

Source, `src/lib/index.js:601-624` and `404-438`. -/

/-- A named LokiJS collection: its name and its in-memory documents. -/
structure Collection where
  name : String
  documents : List JSObj

/-- `DataStore.prototype.dropDatabase`: iterate over *every* collection of
the database and `clear()` it. The `collectionName` argument is used only in
the debug log line — it does not restrict which collections are cleared. -/
def dropDatabase (collectionName : Option String) (collections : List Collection) :
    List Collection :=
  let _ := collectionName
  collections.map (fun c => { c with documents := [] })

/-- `DataStore.prototype.insert`'s identifier pass
(`src/lib/index.js:418-421`): for each document reference, in order, execute
`document._id = document._id || uuid.v4()` — a property write on the
caller's own object. Caller-visible objects live in an explicit heap
(`List JSObj` indexed by address) so that the in-place mutation is
observable; `gen i` is the UUID produced by the `i`-th `uuid.v4()` call. -/
def insertAssignIds (gen : Nat → String) : Nat → List Nat → List JSObj → List JSObj
  | _, [], heap => heap
  | i, a :: rest, heap =>
    let heap' :=
      match heap.get? a with
      | some doc =>
        let cur := (doc.lookup "_id").getD .undefined
        heap.set a (setField doc "_id" (if truthy cur then cur else .str (gen i)))
      | none => heap
    insertAssignIds gen (i + 1) rest heap'

/-- `DataStore.prototype.insert`: run the identifier pass over the supplied
document references first, then hand those same (now mutated) objects to the
engine's `collection.insert`. Returns the heap after mutation and the
collection contents after the engine write. -/
def insertModel (gen : Nat → String) (heap : List JSObj) (data : List Nat)
    (collection : List JSObj) : List JSObj × List JSObj :=
  let heap' := insertAssignIds gen 0 data heap
  (heap', collection ++ data.filterMap heap'.get?)

example :
    insertModel (fun i => toString i) [[("name", .str "E")]] [0] [] =
      ([[("name", .str "E"), ("_id", .str "0")]],
        [[("name", .str "E"), ("_id", .str "0")]]) := rfl

example :
    insertModel (fun i => toString i) [[("_id", .str "keep")]] [0] [] =
      ([[("_id", .str "keep")]], [[("_id", .str "keep")]]) := rfl

/-! ## Update Interpreter

Modelled from the spec: the Update interpreter (`src/lib/update.js`,
constructed as `new Update(update)` in `DataStore.prototype.update`,
`src/lib/index.js:450-479`) is not among the sources; only its caller and
tests are. Per spec section 4.4 it applies `$set` (overwrite), `$inc` (add a
numeric delta, creating the field at the delta if absent) and `$push`
(append to an array field, creating a one-element array if absent) to every
document, and fails fast with an `UnsupportedOperator` condition on any
operator name outside that set. -/

/-- Failure of the Update Interpreter. -/
inductive UpdateError where
  | unsupportedOperator (name : String)

/-- The closed set of supported update operator names. -/
def supportedOperators : List String := ["$set", "$inc", "$push"]

/-- Modelled from the spec: `$inc` adds a numeric delta to a numeric field,
creating the field at the delta's value if absent. -/
def applyIncField (doc : JSObj) (k : String) (v : JSVal) : JSObj :=
  match doc.lookup k, v with
  | some (.num m), .num d => setField doc k (.num (m + d))
  | _, d => setField doc k d

/-- Modelled from the spec: `$push` appends a value to an array-valued
field, creating a one-element array if the field is absent. -/
def applyPushField (doc : JSObj) (k : String) (v : JSVal) : JSObj :=
  match doc.lookup k with
  | some (.arr xs) => setField doc k (.arr (xs ++ [v]))
  | _ => setField doc k (.arr [v])

/-- Modelled from the spec: apply one supported operator's operand mapping
to a document. -/
def applyKnownOperator (op : String) (args : JSObj) (doc : JSObj) : JSObj :=
  if op = "$set" then args.foldl (fun d p => setField d p.1 p.2) doc
  else if op = "$inc" then args.foldl (fun d p => applyIncField d p.1 p.2) doc
  else args.foldl (fun d p => applyPushField d p.1 p.2) doc

/-- Modelled from the spec: apply every operator of an update expression to
one document. -/
def applyUpdateExpression (expr : JSObj) (doc : JSObj) : JSObj :=
  expr.foldl
    (fun d p =>
      match p.2 with
      | .obj args => applyKnownOperator p.1 args d
      | _ => applyKnownOperator p.1 [] d)
    doc

/-- Modelled from the spec: the Update Interpreter validates the operator
names first — any name outside the supported set fails fast with
`UnsupportedOperator` — and only then applies the expression to every
document. -/
def updateDocuments (expr : JSObj) (docs : List JSObj) :
    Except UpdateError (List JSObj) :=
  match expr.find? (fun p => !(supportedOperators.contains p.1)) with
  | some p => .error (.unsupportedOperator p.1)
  | none => .ok (docs.map (applyUpdateExpression expr))

example :
    updateDocuments [("$inc", .obj [("age", .num 10)])] [[("name", .str "X")]] =
      .ok [[("name", .str "X"), ("age", .num 10)]] := rfl

example :
    updateDocuments [("$push", .obj [("tags", .str "red")])] [[]] =
      .ok [[("tags", .arr [.str "red"])]] := rfl

example :
    updateDocuments [("$rename", .obj [("a", .str "b")])] [[("a", .num 1)]] =
      .error (.unsupportedOperator "$rename") := rfl

/-! ## Helper lemmas -/

theorem setField_lookup (l : JSObj) (k : String) (v : JSVal) (k' : String) :
    (setField l k v).lookup k' = if k' = k then some v else l.lookup k' := by
  induction l with
  | nil =>
    by_cases h : k' = k
    · subst h
      simp [setField, List.lookup]
    · have hb : (k' == k) = false := beq_eq_false_iff_ne.mpr h
      simp [setField, List.lookup, hb, h]
  | cons p rest ih =>
    obtain ⟨k₀, v₀⟩ := p
    by_cases h0 : k₀ = k
    · subst h0
      by_cases h : k' = k₀
      · subst h
        simp [setField, List.lookup]
      · have hb : (k' == k₀) = false := beq_eq_false_iff_ne.mpr h
        simp [setField, List.lookup, hb, h]
    · by_cases h : k' = k₀
      · subst h
        have hkk : ¬ k' = k := fun hc => h0 (hc ▸ rfl)
        simp [setField, h0, List.lookup, hkk]
      · have hb : (k' == k₀) = false := beq_eq_false_iff_ne.mpr h
        simp [setField, h0, List.lookup, hb, ih]

theorem setField_keys (l : JSObj) (k : String) (v : JSVal) :
    (setField l k v).map Prod.fst =
      if k ∈ l.map Prod.fst then l.map Prod.fst else l.map Prod.fst ++ [k] := by
  induction l with
  | nil => simp [setField]
  | cons p rest ih =>
    obtain ⟨k₀, v₀⟩ := p
    by_cases h0 : k₀ = k
    · subst h0
      simp [setField]
    · have h0' : ¬ k = k₀ := fun h => h0 h.symm
      by_cases hm : k ∈ rest.map Prod.fst
      · simp [setField, h0, ih, hm, h0']
      · simp [setField, h0, ih, hm, h0']

theorem setField_keys_nodup (l : JSObj) (k : String) (v : JSVal)
    (h : (l.map Prod.fst).Nodup) : ((setField l k v).map Prod.fst).Nodup := by
  rw [setField_keys]
  by_cases hm : k ∈ l.map Prod.fst
  · simpa [hm] using h
  · simp only [hm, if_false]
    exact List.Nodup.append h (List.nodup_singleton k) (by simpa using hm)

theorem setField_append (l : JSObj) (k : String) (v : JSVal)
    (h : k ∉ l.map Prod.fst) : setField l k v = l ++ [(k, v)] := by
  induction l with
  | nil => simp [setField]
  | cons p rest ih =>
    obtain ⟨k₀, v₀⟩ := p
    simp only [List.map_cons, List.mem_cons] at h
    push_neg at h
    have h0 : ¬ k₀ = k := fun hc => h.1 hc.symm
    simp [setField, h0, ih h.2]

theorem setField_self (l : JSObj) (k : String) (v : JSVal)
    (h : l.lookup k = some v) : setField l k v = l := by
  induction l with
  | nil => simp [List.lookup] at h
  | cons p rest ih =>
    obtain ⟨k₀, v₀⟩ := p
    by_cases h0 : k₀ = k
    · subst h0
      simp [List.lookup] at h
      simp [setField, h]
    · have h0' : (k == k₀) = false := by
        simp [beq_eq_false_iff_ne]
        exact fun hc => h0 hc.symm
      simp [List.lookup, h0'] at h
      simp [setField, h0, ih h]

theorem lookup_eq_some_of_mem_nodup (l : JSObj) (k : String) (v : JSVal)
    (hnd : (l.map Prod.fst).Nodup) (hm : (k, v) ∈ l) : l.lookup k = some v := by
  induction l with
  | nil => simp at hm
  | cons p rest ih =>
    obtain ⟨k₀, v₀⟩ := p
    simp only [List.map_cons, List.nodup_cons] at hnd
    rcases List.mem_cons.mp hm with h | h
    · cases h
      simp [List.lookup]
    · have hk : ¬ k = k₀ := by
        intro hc
        subst hc
        exact hnd.1 (List.mem_map.mpr ⟨(k, v), h, rfl⟩)
      have hk' : (k == k₀) = false := beq_eq_false_iff_ne.mpr hk
      simp only [List.lookup, hk']
      exact ih hnd.2 h

theorem mem_keys_lookup_isSome (l : JSObj) (k : String)
    (hm : k ∈ l.map Prod.fst) : ∃ v, l.lookup k = some v := by
  induction l with
  | nil => simp at hm
  | cons p rest ih =>
    obtain ⟨k₀, v₀⟩ := p
    by_cases hk : k = k₀
    · subst hk
      exact ⟨v₀, by simp [List.lookup]⟩
    · have hmem : k ∈ rest.map Prod.fst := by
        have h' : k = k₀ ∨ ∃ x, (k, x) ∈ rest := by simpa using hm
        rcases h' with h | ⟨x, hx⟩
        · exact absurd h hk
        · exact List.mem_map.mpr ⟨(k, x), hx, rfl⟩
      have hk' : (k == k₀) = false := beq_eq_false_iff_ne.mpr hk
      obtain ⟨v, hv⟩ := ih hmem
      exact ⟨v, by simp only [List.lookup, hk']; exact hv⟩

theorem lookup_none_of_not_mem_keys (l : JSObj) (k : String)
    (hm : k ∉ l.map Prod.fst) : l.lookup k = none := by
  induction l with
  | nil => simp [List.lookup]
  | cons p rest ih =>
    obtain ⟨k₀, v₀⟩ := p
    simp only [List.map_cons, List.mem_cons] at hm
    push_neg at hm
    have hk' : (k == k₀) = false := beq_eq_false_iff_ne.mpr hm.1
    simp only [List.lookup, hk']
    exact ih hm.2

/-- Characterisation of the per-field reduce of `projectDocument`: when the
fold succeeds, the result's keys are duplicate-free, every key whose outcome
is a kept value appears with that value, keys outside the processed list (or
with a dropped outcome) read as in the accumulator, and no processed key's
outcome is an error. -/
theorem foldProj_char (rec : JSVal → JSVal → Except Unit JSVal) (proj : JSObj)
    (isExcl : Bool) (d : JSVal) :
    ∀ (keys : List String) (acc res : JSObj),
      foldFieldsM (projStep rec proj isExcl d) acc keys = .ok res →
      (((acc.map Prod.fst).Nodup → (res.map Prod.fst).Nodup) ∧
        (∀ f v, f ∈ keys → fieldOutcome rec proj isExcl d f = some (.ok v) →
          res.lookup f = some v) ∧
        (∀ f, (f ∉ keys ∨ fieldOutcome rec proj isExcl d f = none) →
          res.lookup f = acc.lookup f) ∧
        (∀ f e, f ∈ keys → fieldOutcome rec proj isExcl d f ≠ some (.error e))) := by
  intro keys
  induction keys with
  | nil =>
    intro acc res h
    simp only [foldFieldsM] at h
    cases h
    refine ⟨id, ?_, fun f _ => rfl, ?_⟩
    · intro f v hf
      simp at hf
    · intro f e hf
      simp at hf
  | cons k ks ih =>
    intro acc res h
    simp only [foldFieldsM] at h
    cases hstep : projStep rec proj isExcl d acc k with
    | error e => rw [hstep] at h; cases h
    | ok acc' =>
      rw [hstep] at h
      obtain ⟨ih1, ih2, ih3, ih4⟩ := ih acc' res h
      simp only [projStep] at hstep
      cases hout : fieldOutcome rec proj isExcl d k with
      | none =>
        rw [hout] at hstep
        cases hstep
        refine ⟨ih1, ?_, ?_, ?_⟩
        · intro f v hf hv
          rcases List.mem_cons.mp hf with hf' | hf'
          · subst hf'
            rw [hout] at hv
            cases hv
          · exact ih2 f v hf' hv
        · intro f hcond
          rcases hcond with hno | hnone
          · exact ih3 f (Or.inl fun hm => hno (List.mem_cons_of_mem _ hm))
          · exact ih3 f (Or.inr hnone)
        · intro f e hf
          rcases List.mem_cons.mp hf with hf' | hf'
          · subst hf'
            rw [hout]
            simp
          · exact ih4 f e hf'
      | some ex =>
        cases ex with
        | error e =>
          rw [hout] at hstep
          cases hstep
        | ok v =>
          rw [hout] at hstep
          cases hstep
          refine ⟨fun hnd => ih1 (setField_keys_nodup _ _ _ hnd), ?_, ?_, ?_⟩
          · intro f v' hf hv
            by_cases hfks : f ∈ ks
            · exact ih2 f v' hfks hv
            · have hf' : f = k := by
                rcases List.mem_cons.mp hf with hf' | hf'
                · exact hf'
                · exact absurd hf' hfks
              subst hf'
              have hv' : v = v' := by
                have := hout.symm.trans hv
                injection this with h1
                injection h1
              rw [ih3 f (Or.inl hfks), setField_lookup]
              simp [hv']
          · intro f hcond
            rcases hcond with hno | hnone
            · have h1 : ¬ f = k := fun hc => hno (hc ▸ List.mem_cons_self k ks)
              have h2 : f ∉ ks := fun hm => hno (List.mem_cons_of_mem _ hm)
              rw [ih3 f (Or.inl h2), setField_lookup]
              simp [h1]
            · by_cases hfk : f = k
              · subst hfk
                rw [hout] at hnone
                cases hnone
              · rw [ih3 f (Or.inr hnone), setField_lookup]
                simp [hfk]
          · intro f e hf hcontra
            rcases List.mem_cons.mp hf with hf' | hf'
            · subst hf'
              rw [hout] at hcontra
              simp at hcontra
            · exact ih4 f e hf' hcontra

/-- Rebuilding run of the per-field reduce: iterating over the keys of an
object `rest` whose every entry's outcome is its own kept value appends
`rest` to the accumulator unchanged. -/
theorem foldProj_build (rec : JSVal → JSVal → Except Unit JSVal) (proj : JSObj)
    (isExcl : Bool) (dfull : JSVal) :
    ∀ (rest acc : JSObj),
      (∀ k v, (k, v) ∈ rest → fieldOutcome rec proj isExcl dfull k = some (.ok v)) →
      (∀ k v, (k, v) ∈ rest → k ∉ acc.map Prod.fst) →
      ((rest.map Prod.fst).Nodup) →
      foldFieldsM (projStep rec proj isExcl dfull) acc (rest.map Prod.fst) =
        .ok (acc ++ rest) := by
  intro rest
  induction rest with
  | nil =>
    intro acc _ _ _
    simp [foldFieldsM]
  | cons p rest' ih =>
    obtain ⟨k, v⟩ := p
    intro acc hout hdisj hnd
    simp only [List.map_cons, List.nodup_cons] at hnd
    have hstep : projStep rec proj isExcl dfull acc k = .ok (setField acc k v) := by
      simp only [projStep]
      rw [hout k v (List.mem_cons_self _ _)]
    simp only [List.map_cons, foldFieldsM, hstep]
    rw [setField_append acc k v (hdisj k v (List.mem_cons_self _ _))]
    have hdisj' : ∀ k' v', (k', v') ∈ rest' → k' ∉ (acc ++ [(k, v)]).map Prod.fst := by
      intro k' v' hp hm
      rw [List.map_append] at hm
      rcases List.mem_append.mp hm with hm | hm
      · exact hdisj k' v' (List.mem_cons_of_mem _ hp) hm
      · simp at hm
        subst hm
        exact hnd.1 (List.mem_map.mpr ⟨(k', v'), hp, rfl⟩)
    rw [ih (acc ++ [(k, v)]) (fun k' v' hp => hout k' v' (List.mem_cons_of_mem _ hp))
      hdisj' hnd.2]
    simp

theorem normalise_not_arr (d : JSVal) (hd : ∀ xs, d ≠ .arr xs) :
    normaliseDocuments d = [d] := by
  cases d <;> first | rfl | exact absurd rfl (hd _)

theorem rewrap_not_arr (d : JSVal) (filtered : List JSObj) (hd : ∀ xs, d ≠ .arr xs) :
    rewrapDocuments d filtered = .obj ((filtered.head?).getD []) := by
  cases d <;> first | rfl | exact absurd rfl (hd _)

theorem mapDocsM_ok_mem {g : JSVal → Except Unit JSObj} :
    ∀ (l : List JSVal) (out : List JSObj), mapDocsM g l = .ok out →
      ∀ b ∈ out, ∃ a ∈ l, g a = .ok b := by
  intro l
  induction l with
  | nil =>
    intro out h b hb
    simp [mapDocsM] at h
    subst h
    simp at hb
  | cons a rest ih =>
    intro out h b hb
    rw [mapDocsM] at h
    cases hga : g a with
    | error e => rw [hga] at h; cases h
    | ok b₀ =>
      rw [hga] at h
      cases hrest : mapDocsM g rest with
      | error e => rw [hrest] at h; cases h
      | ok out' =>
        rw [hrest] at h
        cases h
        rcases List.mem_cons.mp hb with hb | hb
        · exact ⟨a, List.mem_cons_self a rest, hb ▸ hga⟩
        · obtain ⟨a', ha', hga'⟩ := ih out' hrest b hb
          exact ⟨a', List.mem_cons_of_mem a ha', hga'⟩

theorem mapDocsM_ok_of_mem {g : JSVal → Except Unit JSObj} (f : JSObj → JSVal) :
    ∀ (out : List JSObj), (∀ b ∈ out, g (f b) = .ok b) →
      mapDocsM g (out.map f) = .ok out := by
  intro out
  induction out with
  | nil => intro _; simp [mapDocsM]
  | cons b rest ih =>
    intro h
    rw [List.map_cons, mapDocsM, h b (List.mem_cons_self b rest),
      ih (fun b' hb' => h b' (List.mem_cons_of_mem b hb'))]

theorem mapDocsM_singleton_ok {g : JSVal → Except Unit JSObj} {d : JSVal}
    {out : List JSObj} (h : mapDocsM g [d] = .ok out) :
    ∃ o, g d = .ok o ∧ out = [o] := by
  rw [mapDocsM] at h
  cases hgd : g d with
  | error e => rw [hgd] at h; cases h
  | ok o =>
    rw [hgd] at h
    simp [mapDocsM] at h
    exact ⟨o, rfl, h.symm⟩

/-- Projecting a document is stable: re-projecting a successful projection
result (under the same projection, mode, and nested-projection recursion, the
latter assumed stable itself) reproduces it. -/
theorem projectDocument_stable (rec : JSVal → JSVal → Except Unit JSVal)
    (hrec : ∀ f w r, rec f w = .ok r → rec f r = .ok r)
    (proj : JSObj) (isExcl : Bool) (d : JSVal) (o : JSObj)
    (h : projectDocument rec proj isExcl d = .ok o) :
    projectDocument rec proj isExcl (.obj o) = .ok o := by
  have hfold : foldFieldsM (projStep rec proj isExcl d) [] (jsKeys d) = .ok o := by
    cases d <;> first | exact h | cases h
  obtain ⟨hnd, hb, hc, hd⟩ := foldProj_char rec proj isExcl d (jsKeys d) [] o hfold
  have hondup : (o.map Prod.fst).Nodup := hnd (by simp)
  have hprov : ∀ k v, (k, v) ∈ o → fieldOutcome rec proj isExcl d k = some (.ok v) := by
    intro k v hm
    have hlk : o.lookup k = some v := lookup_eq_some_of_mem_nodup o k v hondup hm
    cases hout : fieldOutcome rec proj isExcl d k with
    | none =>
      rw [hc k (Or.inr hout)] at hlk
      simp [List.lookup] at hlk
    | some ex =>
      by_cases hkmem : k ∈ jsKeys d
      · cases ex with
        | error e => exact absurd hout (hd k e hkmem)
        | ok v' =>
          have h2 := (hb k v' hkmem hout).symm.trans hlk
          injection h2 with h2
          subst h2
          rfl
      · rw [hc k (Or.inl hkmem)] at hlk
        simp [List.lookup] at hlk
  have hprov' : ∀ k v, (k, v) ∈ o →
      fieldOutcome rec proj isExcl (.obj o) k = some (.ok v) := by
    intro k v hm
    have hget : jsGet (.obj o) k = v := by
      simp [jsGet, lookup_eq_some_of_mem_nodup o k v hondup hm]
    have h1 := hprov k v hm
    simp only [fieldOutcome] at h1 ⊢
    split at h1
    next hcond =>
      rw [if_pos hcond, hget]
    next hcond =>
      split at h1
      next hc2 =>
        injection h1 with h1'
        rw [if_neg hcond, if_pos hc2, hget, hrec _ _ _ h1']
      next hc2 => cases h1
  have hbuild := foldProj_build rec proj isExcl (.obj o) o [] hprov'
    (by intro k v _ hm; simp at hm) hondup
  show foldFieldsM (projStep rec proj isExcl (.obj o)) [] (o.map Prod.fst) = .ok o
  rw [hbuild]
  simp

/-- The projection engine is stable on its own output: a successful
application of `applyFieldsFilterToResults`, re-applied (with the same fuel
and spec) to its result, reproduces that result. -/
theorem applyF_stable : ∀ (n : Nat) (fields docs r : JSVal),
    applyFieldsFilterToResults n fields docs = .ok r →
    applyFieldsFilterToResults n fields r = .ok r := by
  intro n
  induction n with
  | zero =>
    intro fields docs r h
    simp [applyFieldsFilterToResults] at h
  | succ n ih =>
    intro fields docs r h
    by_cases ht : truthy fields = false
    · simp only [applyFieldsFilterToResults, if_pos ht] at h
      injection h with h'
      subst h'
      simp [applyFieldsFilterToResults, ht]
    · by_cases hkk : jsKeys fields = []
      · simp only [applyFieldsFilterToResults, if_neg ht, if_pos hkk] at h
        injection h with h'
        subst h'
        simp [applyFieldsFilterToResults, ht, hkk]
      · simp only [applyFieldsFilterToResults, if_neg ht, if_neg hkk] at h ⊢
        cases hcp : convertFieldsProjection (flattenProjection fields) with
        | error e => simp only [hcp] at h; cases h
        | ok proj =>
          simp only [hcp] at h ⊢
          cases hm : mapDocsM (projectDocument (applyFieldsFilterToResults n) proj
              (isExclusionProjection proj)) (normaliseDocuments docs) with
          | error e => simp only [hm] at h; cases h
          | ok filtered =>
            simp only [hm] at h
            injection h with h'
            subst h'
            have hstab : ∀ o ∈ filtered,
                projectDocument (applyFieldsFilterToResults n) proj
                  (isExclusionProjection proj) (.obj o) = .ok o := by
              intro o ho
              obtain ⟨dd, _, hdd⟩ := mapDocsM_ok_mem _ _ hm o ho
              exact projectDocument_stable _ ih _ _ _ _ hdd
            by_cases harr : ∃ xs, docs = .arr xs
            · obtain ⟨xs, rfl⟩ := harr
              have hmap : mapDocsM (projectDocument (applyFieldsFilterToResults n) proj
                  (isExclusionProjection proj))
                  (normaliseDocuments (rewrapDocuments (.arr xs) filtered)) =
                  .ok filtered :=
                mapDocsM_ok_of_mem _ filtered hstab
              rw [hmap]
              rfl
            · have hne : ∀ xs, docs ≠ .arr xs := fun xs hc => harr ⟨xs, hc⟩
              rw [normalise_not_arr docs hne] at hm
              obtain ⟨o, hgo, rfl⟩ := mapDocsM_singleton_ok hm
              have hR : rewrapDocuments docs [o] = .obj o := by
                rw [rewrap_not_arr docs [o] hne]
                rfl
              rw [hR]
              have hgo' := projectDocument_stable _ ih _ _ _ _ hgo
              have hmap : mapDocsM (projectDocument (applyFieldsFilterToResults n) proj
                  (isExclusionProjection proj)) (normaliseDocuments (.obj o)) =
                  .ok [o] := by
                show mapDocsM (projectDocument (applyFieldsFilterToResults n) proj
                  (isExclusionProjection proj)) [.obj o] = .ok [o]
                simp only [mapDocsM, hgo']
              rw [hmap]
              rfl

/-- Field read on an object value; `none` for non-objects and absent keys. -/
def objLookup : JSVal → String → Option JSVal
  | .obj fs, k => fs.lookup k
  | _, _ => none

theorem strictEqNum_iff (v : JSVal) (n : Int) :
    strictEqNum v n = true ↔ v = .num n := by
  cases v <;> simp [strictEqNum]

/-- A successful projection of a single document (object form) returns an
object whose `_id` entry reads exactly as in the input document — present
with the same value, or absent in both. -/
theorem applyF_obj_preserves_id (n : Nat) (spec : JSVal) (doc : JSObj) (r : JSVal)
    (h : applyFieldsFilterToResults n spec (.obj doc) = .ok r) :
    ∃ rf : JSObj, r = .obj rf ∧ rf.lookup "_id" = doc.lookup "_id" := by
  cases n with
  | zero => simp [applyFieldsFilterToResults] at h
  | succ n =>
    by_cases ht : truthy spec = false
    · simp only [applyFieldsFilterToResults, if_pos ht] at h
      injection h with h'
      exact ⟨doc, h'.symm, rfl⟩
    · by_cases hkk : jsKeys spec = []
      · simp only [applyFieldsFilterToResults, if_neg ht, if_pos hkk] at h
        injection h with h'
        exact ⟨doc, h'.symm, rfl⟩
      · simp only [applyFieldsFilterToResults, if_neg ht, if_neg hkk] at h
        cases hcp : convertFieldsProjection (flattenProjection spec) with
        | error e => simp only [hcp] at h; cases h
        | ok proj =>
          simp only [hcp] at h
          cases hm : mapDocsM (projectDocument (applyFieldsFilterToResults n) proj
              (isExclusionProjection proj)) (normaliseDocuments (.obj doc)) with
          | error e => simp only [hm] at h; cases h
          | ok filtered =>
            simp only [hm] at h
            injection h with h'
            have hm' : mapDocsM (projectDocument (applyFieldsFilterToResults n) proj
                (isExclusionProjection proj)) [.obj doc] = .ok filtered := hm
            obtain ⟨o, hgo, rfl⟩ := mapDocsM_singleton_ok hm'
            refine ⟨o, by rw [← h']; rfl, ?_⟩
            have hfold : foldFieldsM (projStep (applyFieldsFilterToResults n) proj
                (isExclusionProjection proj) (.obj doc)) [] (jsKeys (.obj doc)) =
                .ok o := hgo
            obtain ⟨_, hb, hc, _⟩ := foldProj_char _ _ _ _ _ _ _ hfold
            by_cases hmem : "_id" ∈ doc.map Prod.fst
            · obtain ⟨v, hv⟩ := mem_keys_lookup_isSome doc "_id" hmem
              have hout : fieldOutcome (applyFieldsFilterToResults n) proj
                  (isExclusionProjection proj) (.obj doc) "_id" = some (.ok v) := by
                simp only [fieldOutcome]
                simp [jsGet, hv]
              rw [hb "_id" v hmem hout, hv]
            · rw [hc "_id" (Or.inl hmem), lookup_none_of_not_mem_keys doc "_id" hmem]
              rfl

/-! ## Claims -/

/-- **C2**: `prepareQuery` rewrites `{f: {$ne: null}}` to `{f: {$ne:
undefined}}` and `{f: null}` to `{f: {$exists: false}}`, and for every field
name the two normalized filters differ. -/
theorem prepareQuery_ne_null_vs_null (f : String) :
    prepareQuery [(f, .obj [("$ne", .null)])] =
      .obj [(f, .obj [("$ne", .undefined)])] ∧
    prepareQuery [(f, .null)] = .obj [(f, .obj [("$exists", .bool false)])] ∧
    prepareQuery [(f, .obj [("$ne", .null)])] ≠ prepareQuery [(f, .null)] := by
  refine ⟨rfl, rfl, ?_⟩
  intro hcontra
  rw [show prepareQuery [(f, .obj [("$ne", .null)])] =
        .obj [(f, .obj [("$ne", .undefined)])] from rfl,
      show prepareQuery [(f, .null)] =
        .obj [(f, .obj [("$exists", .bool false)])] from rfl] at hcontra
  simp at hcontra

/-- **C6**: `prepareQuery` rewrites a regular-expression literal to the
operator form `{$regex: [source, flags]}`, preserving source and flags
exactly. -/
theorem prepareQuery_regex (f src flags : String) :
    prepareQuery [(f, .regex src flags)] =
      .obj [(f, .obj [("$regex", .arr [.str src, .str flags])])] := rfl

/-- **C8**: with a sort mapping, `getSortParameters` takes the mapping's
first key as the property, descending exactly when that key's value is `-1`;
without one, it returns the insertion-sequence field `$loki` ascending. -/
theorem getSortParameters_spec (options : JSVal) :
    (∀ k v rest, jsGet options "sort" = .obj ((k, v) :: rest) →
      (getSortParameters options).property = .str k ∧
      ((getSortParameters options).descending = true ↔ v = .num (-1))) ∧
    (jsGet options "sort" = .undefined →
      getSortParameters options = ⟨.str "$loki", false⟩) := by
  constructor
  · intro k v rest hs
    have hred : getSortParameters options =
        ⟨.str k, strictEqNum ((List.lookup k ((k, v) :: rest)).getD .undefined) (-1)⟩ := by
      simp only [getSortParameters]
      rw [hs]
      rfl
    have hlk : (List.lookup k ((k, v) :: rest)).getD JSVal.undefined = v := by
      simp [List.lookup]
    rw [hlk] at hred
    rw [hred]
    exact ⟨rfl, strictEqNum_iff v (-1)⟩
  · intro hu
    simp only [getSortParameters]
    rw [hu]
    rfl

/-- **C8** witness: `{sort: {name: -1}}` sorts by `name` descending; an
options object without a sort mapping gives `$loki` ascending. -/
theorem getSortParameters_spec_witness :
    ((getSortParameters (.obj [("sort", .obj [("name", .num (-1))])])).property =
        .str "name" ∧
      ((getSortParameters (.obj [("sort", .obj [("name", .num (-1))])])).descending =
          true ↔ JSVal.num (-1) = .num (-1))) ∧
    getSortParameters (.obj [("title", .num 1)]) = ⟨.str "$loki", false⟩ :=
  ⟨(getSortParameters_spec (.obj [("sort", .obj [("name", .num (-1))])])).1
      "name" (.num (-1)) [] rfl,
   (getSortParameters_spec (.obj [("title", .num 1)])).2 rfl⟩

/-- **C5**: an update expression containing an operator name outside the
supported set (`$set`, `$inc`, `$push`) makes the Update Interpreter fail
with an `UnsupportedOperator` condition instead of silently ignoring it. -/
theorem update_unknown_operator_fails (expr : JSObj) (docs : List JSObj)
    (op : String) (v : JSVal) (hmem : (op, v) ∈ expr)
    (hop : op ∉ supportedOperators) :
    ∃ name, updateDocuments expr docs = .error (.unsupportedOperator name) ∧
      name ∉ supportedOperators := by
  cases hf : expr.find? (fun p => !(supportedOperators.contains p.1)) with
  | none =>
    have hall := List.find?_eq_none.mp hf (op, v) hmem
    simp at hall
    exact absurd hall hop
  | some p =>
    have hp := List.find?_some hf
    simp at hp
    refine ⟨p.1, ?_, hp⟩
    simp only [updateDocuments, hf]

/-- **C5** witness: a `$rename` operator fails the whole update. -/
theorem update_unknown_operator_fails_witness :
    ∃ name,
      updateDocuments [("$rename", .obj [("a", .str "b")])] [[("a", .num 1)]] =
        .error (.unsupportedOperator name) ∧ name ∉ supportedOperators :=
  update_unknown_operator_fails [("$rename", .obj [("a", .str "b")])]
    [[("a", .num 1)]] "$rename" (.obj [("a", .str "b")])
    (List.mem_cons_self _ _) (by decide)

/-- **C4** counterexample: `dropDatabase("A")` on a database holding
collections `A` and `B` clears `B` as well — the claim that only the
matching collection is cleared and every other collection keeps its
documents is false. -/
theorem dropDatabase_counterexample :
    dropDatabase (some "A")
        [⟨"A", [[("x", .num 1)]]⟩, ⟨"B", [[("y", .num 2)]]⟩] =
      [⟨"A", []⟩, ⟨"B", []⟩] ∧
    dropDatabase (some "A")
        [⟨"A", [[("x", .num 1)]]⟩, ⟨"B", [[("y", .num 2)]]⟩] ≠
      [⟨"A", []⟩, ⟨"B", [[("y", .num 2)]]⟩] := by
  refine ⟨rfl, ?_⟩
  intro h
  rw [show dropDatabase (some "A")
        [⟨"A", [[("x", .num 1)]]⟩, ⟨"B", [[("y", .num 2)]]⟩] =
      [⟨"A", []⟩, ⟨"B", []⟩] from rfl] at h
  simp at h

/-- **C4** (amended): `dropDatabase` clears the documents of *every*
collection of the database instance, regardless of the supplied collection
name, keeping the collection names. -/
theorem dropDatabase_clears_all (name : Option String) (colls : List Collection) :
    (dropDatabase name colls).map Collection.name = colls.map Collection.name ∧
    ∀ c ∈ dropDatabase name colls, c.documents = [] := by
  constructor
  · simp [dropDatabase]
  · intro c hc
    simp only [dropDatabase, List.mem_map] at hc
    obtain ⟨c₀, _, hE⟩ := hc
    rw [← hE]

/-- **C4** (amended) witness: dropping with a name clears that collection's
documents. -/
theorem dropDatabase_clears_all_witness :
    (dropDatabase (some "users") [⟨"users", [[("a", .num 1)]]⟩]).map
        Collection.name = ["users"] ∧
    Collection.documents ⟨"users", ([] : List JSObj)⟩ = [] :=
  ⟨(dropDatabase_clears_all (some "users") [⟨"users", [[("a", .num 1)]]⟩]).1,
   (dropDatabase_clears_all (some "users") [⟨"users", [[("a", .num 1)]]⟩]).2
     ⟨"users", []⟩ (by simp [dropDatabase])⟩

/-- An inclusion projection specification as defined by the spec's data
model: either a sequence of field names, or a non-empty mapping from
field-paths to `1`. -/
def isInclusionSpec : JSVal → Bool
  | .arr xs =>
    xs.all (fun x => match x with | .str _ => true | _ => false)
  | .obj fs =>
    !fs.isEmpty && fs.all (fun p => match p.2 with | .num n => n == 1 | _ => false)
  | _ => false

/-- **C9**: projection is idempotent under a stable inclusion specification —
re-applying `applyFieldsFilterToResults` with the same spec to its own
(successful) output reproduces that output. -/
theorem projection_idempotent (n : Nat) (spec : JSVal) (docs : List JSVal)
    (r : JSVal) (hspec : isInclusionSpec spec = true)
    (h : applyFieldsFilterToResults n spec (.arr docs) = .ok r) :
    applyFieldsFilterToResults n spec r = .ok r :=
  applyF_stable n spec (.arr docs) r h

/-- **C9** witness: projecting `[{a, b}]` onto `['a']` and projecting the
result again gives the same single-field documents. -/
theorem projection_idempotent_witness :
    applyFieldsFilterToResults 2 (.arr [.str "a"])
        (.arr [.obj [("a", .num 1), ("b", .num 2)]]) =
      .ok (.arr [.obj [("a", .num 1)]]) ∧
    applyFieldsFilterToResults 2 (.arr [.str "a"]) (.arr [.obj [("a", .num 1)]]) =
      .ok (.arr [.obj [("a", .num 1)]]) :=
  ⟨rfl, projection_idempotent 2 (.arr [.str "a"])
    [.obj [("a", .num 1), ("b", .num 2)]] (.arr [.obj [("a", .num 1)]]) rfl rfl⟩

/-- **C7**: for a non-empty projection specification and a document carrying
`_id`, a successful projection returns a document that still carries `_id`
with its original value. -/
theorem projection_never_drops_id (n : Nat) (spec : JSVal) (doc : JSObj)
    (r : JSVal) (v : JSVal) (hspec : truthy spec = true) (hne : jsKeys spec ≠ [])
    (hid : doc.lookup "_id" = some v)
    (h : applyFieldsFilterToResults n spec (.obj doc) = .ok r) :
    objLookup r "_id" = some v := by
  obtain ⟨rf, hr, hl⟩ := applyF_obj_preserves_id n spec doc r h
  subst hr
  show rf.lookup "_id" = some v
  rw [hl, hid]

/-- **C7** witness: projecting onto `['a', 'b']` keeps `_id` even though the
spec does not mention it. -/
theorem projection_never_drops_id_witness :
    objLookup (.obj [("_id", .str "x"), ("a", .num 1)]) "_id" = some (.str "x") :=
  projection_never_drops_id 2 (.arr [.str "a", .str "b"])
    [("_id", .str "x"), ("a", .num 1), ("c", .num 3)]
    (.obj [("_id", .str "x"), ("a", .num 1)]) (.str "x") rfl (by decide) rfl rfl

/-- **C3** counterexample: the spec `{"data.age": 0}` has its only leaf `0`
at a nested position, so per the claim the whole projection would run in
exclusion mode and keep `name`; the code decides the mode from *top-level*
values only, runs the top level in inclusion mode, and drops `name`. -/
theorem projection_mode_counterexample :
    applyFieldsFilterToResults 3 (.obj [("data.age", .num 0)])
        (.obj [("_id", .str "1"), ("name", .str "X"),
          ("data", .obj [("age", .num 5), ("city", .str "Y")])]) =
      .ok (.obj [("_id", .str "1"), ("data", .obj [("city", .str "Y")])]) ∧
    applyFieldsFilterToResults 3 (.obj [("data.age", .num 0)])
        (.obj [("_id", .str "1"), ("name", .str "X"),
          ("data", .obj [("age", .num 5), ("city", .str "Y")])]) ≠
      .ok (.obj [("_id", .str "1"), ("name", .str "X"),
        ("data", .obj [("city", .str "Y")])]) := by
  refine ⟨rfl, ?_⟩
  intro h
  rw [show applyFieldsFilterToResults 3 (.obj [("data.age", .num 0)])
        (.obj [("_id", .str "1"), ("name", .str "X"),
          ("data", .obj [("age", .num 5), ("city", .str "Y")])]) =
      .ok (.obj [("_id", .str "1"), ("data", .obj [("city", .str "Y")])])
    from rfl] at h
  simp at h

/-- **C3** (amended): the projection mode is decided per nesting level from
the *top-level* values of the dotted-path-expanded tree — if no top-level
value is `0`, the level is applied in inclusion mode even when nested leaves
are `0`: every document field absent from the tree's top level (other than
`_id`) is dropped. -/
theorem projection_mode_top_level (n : Nat) (proj : JSObj) (doc : JSObj)
    (r : JSVal) (projection : JSObj) (hproj : proj ≠ [])
    (hc : convertFieldsProjection (.obj proj) = .ok projection)
    (hincl : isExclusionProjection projection = false)
    (h : applyFieldsFilterToResults (n + 1) (.obj proj) (.obj doc) = .ok r)
    (k : String) (hk : k ≠ "_id") (habs : projection.lookup k = none) :
    objLookup r k = none := by
  have ht : ¬ truthy (.obj proj) = false := by simp [truthy]
  have hkk : ¬ jsKeys (.obj proj) = [] := by
    show ¬ proj.map Prod.fst = []
    simpa using hproj
  simp only [applyFieldsFilterToResults, if_neg ht, if_neg hkk] at h
  have hc' : convertFieldsProjection (flattenProjection (.obj proj)) =
      .ok projection := hc
  simp only [hc'] at h
  cases hm : mapDocsM (projectDocument (applyFieldsFilterToResults n) projection
      (isExclusionProjection projection)) (normaliseDocuments (.obj doc)) with
  | error e => simp only [hm] at h; cases h
  | ok filtered =>
    simp only [hm] at h
    injection h with h'
    have hm' : mapDocsM (projectDocument (applyFieldsFilterToResults n) projection
        (isExclusionProjection projection)) [.obj doc] = .ok filtered := hm
    obtain ⟨o, hgo, rfl⟩ := mapDocsM_singleton_ok hm'
    have hr : r = .obj o := by rw [← h']; rfl
    subst hr
    have hfold : foldFieldsM (projStep (applyFieldsFilterToResults n) projection
        (isExclusionProjection projection) (.obj doc)) [] (jsKeys (.obj doc)) =
        .ok o := hgo
    obtain ⟨_, _, hcc, _⟩ := foldProj_char _ _ _ _ _ _ _ hfold
    have hout : fieldOutcome (applyFieldsFilterToResults n) projection
        (isExclusionProjection projection) (.obj doc) k = none := by
      simp [fieldOutcome, habs, hincl, hk, strictEqNum, strictEqUndefined, truthy]
    show o.lookup k = none
    rw [hcc k (Or.inr hout)]
    rfl

/-- **C3** (amended) witness: on the counterexample document the field
`name`, absent from the top level of the expanded tree `{data: {age: 0}}`,
is dropped. -/
theorem projection_mode_top_level_witness :
    objLookup (.obj [("_id", .str "1"), ("data", .obj [("city", .str "Y")])])
      "name" = none :=
  projection_mode_top_level 2 [("data.age", .num 0)]
    [("_id", .str "1"), ("name", .str "X"),
      ("data", .obj [("age", .num 5), ("city", .str "Y")])]
    (.obj [("_id", .str "1"), ("data", .obj [("city", .str "Y")])])
    [("data", .obj [("age", .num 0)])] (by simp) rfl rfl rfl "name" (by decide) rfl

theorem expandField_length (k : String) (v : JSVal) :
    (expandField k v).length =
      if isObjectTruthy v then (jsEntries v).length else 1 := by
  by_cases h : isObjectTruthy v = true
  · simp [expandField, h]
  · simp [expandField, h]

theorem flatMap_expand_length (l : JSObj) :
    (l.flatMap (fun p => expandField p.1 p.2)).length =
      (l.map (fun p => if isObjectTruthy p.2 then (jsEntries p.2).length else 1)).sum := by
  induction l with
  | nil => rfl
  | cons p rest ih =>
    rw [List.flatMap_cons, List.length_append, List.map_cons, List.sum_cons,
      expandField_length, ih]

theorem prepareQueryExpressions_length (q : JSObj) :
    (prepareQueryExpressions q).length =
      ((rewriteQuery q).map
        (fun p => if isObjectTruthy p.2 then (jsEntries p.2).length else 1)).sum :=
  flatMap_expand_length (rewriteQuery q)

theorem flatMap_eq_singleton {α β : Type} (f : α → List β) (l : List α) (e : β)
    (h : l.flatMap f = [e]) (hne : ∀ x ∈ l, f x ≠ []) :
    ∃ x, l = [x] ∧ f x = [e] := by
  cases l with
  | nil => simp at h
  | cons x rest =>
    rw [List.flatMap_cons] at h
    cases hfx : f x with
    | nil => exact absurd hfx (hne x (List.mem_cons_self x rest))
    | cons y ys =>
      rw [hfx, List.cons_append] at h
      injection h with h1 h2
      obtain ⟨hys, hrest⟩ := List.append_eq_nil.mp h2
      have hrest' : rest = [] := by
        cases rest with
        | nil => rfl
        | cons z rest' =>
          rw [List.flatMap_cons] at hrest
          obtain ⟨hz, _⟩ := List.append_eq_nil.mp hrest
          exact absurd hz (hne z (List.mem_cons_of_mem _ (List.mem_cons_self z rest')))
      subst hrest' hys h1
      exact ⟨x, rfl, hfx⟩

theorem rewriteValue_ne_regex (v : JSVal) (s f : String) :
    rewriteValue v ≠ .regex s f := by
  cases v <;> simp [rewriteValue] <;> split <;> simp

theorem expandField_ne_nil (k : String) (v : JSVal)
    (h1 : ∀ xs, v ≠ .arr xs) (h2 : v ≠ .obj [])
    (h3 : ∀ s f, v ≠ .regex s f) : expandField k v ≠ [] := by
  cases v with
  | obj fs =>
    cases fs with
    | nil => exact absurd rfl h2
    | cons p rest => simp [expandField, isObjectTruthy, jsEntries]
  | arr xs => exact absurd rfl (h1 xs)
  | regex s f => exact absurd rfl (h3 s f)
  | null => simp [expandField, isObjectTruthy]
  | undefined => simp [expandField, isObjectTruthy]
  | bool b => simp [expandField, isObjectTruthy]
  | num n => simp [expandField, isObjectTruthy]
  | str s => simp [expandField, isObjectTruthy]

/-- **C1** (amended): `prepareQuery` produces exactly one expression per
field/operator pair of the rewritten mapping, in order; with more than one
expression it returns the `$and` conjunction of exactly those expressions;
with exactly one expression it returns the rewritten mapping itself, which
equals that sole expression provided no field's value is an array or an
empty operator sub-mapping; the empty mapping is returned unchanged. -/
theorem prepareQuery_expansion (q : JSObj) :
    ((prepareQueryExpressions q).length =
      ((rewriteQuery q).map
        (fun p => if isObjectTruthy p.2 then (jsEntries p.2).length else 1)).sum) ∧
    (1 < (prepareQueryExpressions q).length →
      prepareQuery q = .obj [("$and", .arr (prepareQueryExpressions q))]) ∧
    (∀ e, prepareQueryExpressions q = [e] →
      (∀ p ∈ rewriteQuery q, (∀ xs, p.2 ≠ JSVal.arr xs) ∧ p.2 ≠ .obj []) →
      prepareQuery q = e) ∧
    (q = [] → prepareQuery q = .obj []) := by
  refine ⟨prepareQueryExpressions_length q, ?_, ?_, ?_⟩
  · intro h
    have h' : 1 < ((rewriteQuery q).flatMap fun p => expandField p.1 p.2).length := h
    simp only [prepareQuery]
    rw [if_pos h']
    rfl
  · intro e he hgood
    have hne : ∀ p ∈ rewriteQuery q, expandField p.1 p.2 ≠ [] := by
      intro p hp
      obtain ⟨hna, hno⟩ := hgood p hp
      have hnr : ∀ s f, p.2 ≠ .regex s f := by
        intro s f hc
        obtain ⟨p₀, _, hE⟩ := List.mem_map.mp hp
        have : rewriteValue p₀.2 = .regex s f := by
          have := congrArg Prod.snd hE
          rw [hc] at this
          exact this
        exact absurd this (rewriteValue_ne_regex p₀.2 s f)
      exact expandField_ne_nil p.1 p.2 hna hno hnr
    obtain ⟨p, hl, hfp⟩ := flatMap_eq_singleton _ _ _ he hne
    have hlen : ¬ 1 < ((rewriteQuery q).flatMap fun p => expandField p.1 p.2).length := by
      have hE : ((rewriteQuery q).flatMap fun p => expandField p.1 p.2) = [e] := he
      rw [hE]
      simp
    simp only [prepareQuery]
    rw [if_neg hlen, hl]
    obtain ⟨k, v⟩ := p
    cases v with
    | obj fs =>
      cases fs with
      | nil =>
        refine absurd rfl (hgood (k, .obj []) ?_).2
        rw [hl]
        exact List.mem_cons_self _ _
      | cons a rest =>
        rw [show expandField k (.obj (a :: rest)) =
            ((a :: rest).map (fun p => JSVal.obj [(k, JSVal.obj [p])])) from rfl,
          List.map_cons] at hfp
        injection hfp with h1 h2
        rw [List.map_eq_nil] at h2
        subst h2
        exact h1
    | arr xs =>
      refine absurd rfl ((hgood (k, .arr xs) ?_).1 xs)
      rw [hl]
      exact List.mem_cons_self _ _
    | regex s f =>
      have hp : (k, JSVal.regex s f) ∈ rewriteQuery q := by
        rw [hl]
        exact List.mem_cons_self _ _
      obtain ⟨p₀, _, hE⟩ := List.mem_map.mp hp
      have : rewriteValue p₀.2 = .regex s f := congrArg Prod.snd hE
      exact absurd this (rewriteValue_ne_regex p₀.2 s f)
    | null =>
      rw [show expandField k JSVal.null = [JSVal.obj [(k, JSVal.null)]] from rfl] at hfp
      injection hfp
    | undefined =>
      rw [show expandField k JSVal.undefined =
          [JSVal.obj [(k, JSVal.undefined)]] from rfl] at hfp
      injection hfp
    | bool b =>
      rw [show expandField k (JSVal.bool b) =
          [JSVal.obj [(k, JSVal.bool b)]] from rfl] at hfp
      injection hfp
    | num m =>
      rw [show expandField k (JSVal.num m) =
          [JSVal.obj [(k, JSVal.num m)]] from rfl] at hfp
      injection hfp
    | str s =>
      rw [show expandField k (JSVal.str s) =
          [JSVal.obj [(k, JSVal.str s)]] from rfl] at hfp
      injection hfp
  · intro hq
    subst hq
    rfl

/-- **C1** counterexample: the mapping `{a: {}, b: 1}` expands to exactly one
expression `{b: 1}`, yet `prepareQuery` returns the whole (rewritten) mapping
`{a: {}, b: 1}`, not that expression unwrapped. -/
theorem prepareQuery_unwrap_counterexample :
    prepareQueryExpressions [("a", .obj []), ("b", .num 1)] =
      [.obj [("b", .num 1)]] ∧
    prepareQuery [("a", .obj []), ("b", .num 1)] ≠ .obj [("b", .num 1)] := by
  refine ⟨rfl, ?_⟩
  intro h
  rw [show prepareQuery [("a", .obj []), ("b", .num 1)] =
      .obj [("a", .obj []), ("b", .num 1)] from rfl] at h
  simp at h

/-- **C1** witness: a two-field query with a two-operator sub-mapping wraps
its three expressions in `$and`; a one-field, one-operator query and the
empty query are returned unwrapped. -/
theorem prepareQuery_expansion_witness :
    prepareQuery [("f1", .num 1), ("f2", .obj [("$gt", .num 1), ("$lt", .num 10)])] =
      .obj [("$and", .arr (prepareQueryExpressions
        [("f1", .num 1), ("f2", .obj [("$gt", .num 1), ("$lt", .num 10)])]))] ∧
    prepareQuery [("f", .obj [("$gt", .num 5)])] =
      .obj [("f", .obj [("$gt", .num 5)])] ∧
    prepareQuery ([] : JSObj) = .obj [] :=
  ⟨(prepareQuery_expansion _).2.1 (by decide),
   (prepareQuery_expansion [("f", .obj [("$gt", .num 5)])]).2.2.1
     (.obj [("f", .obj [("$gt", .num 5)])]) rfl
     (by
       intro p hp
       rw [show rewriteQuery [("f", .obj [("$gt", .num 5)])] =
           [("f", .obj [("$gt", .num 5)])] from rfl] at hp
       have hp' : p = ("f", JSVal.obj [("$gt", JSVal.num 5)]) := by simpa using hp
       subst hp'
       exact ⟨fun xs => by simp, by simp⟩),
   (prepareQuery_expansion []).2.2.2 rfl⟩

theorem get?_set_ne {α : Type} :
    ∀ (l : List α) (i j : Nat) (x : α), i ≠ j → (l.set i x).get? j = l.get? j := by
  intro l
  induction l with
  | nil => intro i j x _; simp
  | cons a rest ih =>
    intro i j x h
    cases i with
    | zero =>
      cases j with
      | zero => exact absurd rfl h
      | succ j' => rfl
    | succ i' =>
      cases j with
      | zero => rfl
      | succ j' =>
        show (rest.set i' x).get? j' = rest.get? j'
        exact ih i' j' x (fun hc => h (by rw [hc]))

theorem get?_set_self {α : Type} :
    ∀ (l : List α) (i : Nat) (x y : α), l.get? i = some y →
      (l.set i x).get? i = some x := by
  intro l
  induction l with
  | nil => intro i x y h; simp at h
  | cons a rest ih =>
    intro i x y h
    cases i with
    | zero => rfl
    | succ i' => exact ih i' x y h

/-- Addresses not in the insert batch are untouched by the identifier pass. -/
theorem insertAssignIds_frame (gen : Nat → String) :
    ∀ (addrs : List Nat) (i : Nat) (heap : List JSObj) (a : Nat), a ∉ addrs →
      (insertAssignIds gen i addrs heap).get? a = heap.get? a := by
  intro addrs
  induction addrs with
  | nil => intro i heap a _; rfl
  | cons b rest ih =>
    intro i heap a ha
    have hab : a ≠ b := fun hc => ha (hc ▸ List.mem_cons_self b rest)
    have ha' : a ∉ rest := fun hm => ha (List.mem_cons_of_mem _ hm)
    simp only [insertAssignIds]
    cases hb : heap.get? b with
    | none => exact ih (i + 1) heap a ha'
    | some doc =>
      rw [ih (i + 1) _ a ha']
      exact get?_set_ne heap b a _ (fun hc => hab hc.symm)

/-- The identifier pass writes, at the `j`-th address of the batch, the
document with `_id` reassigned: kept when already truthy, otherwise the
`j`-th generated UUID. -/
theorem insertAssignIds_get (gen : Nat → String) :
    ∀ (addrs : List Nat) (i j : Nat) (heap : List JSObj) (a : Nat) (doc : JSObj),
      addrs.Nodup → addrs.get? j = some a → heap.get? a = some doc →
      (insertAssignIds gen i addrs heap).get? a =
        some (setField doc "_id"
          (if truthy ((doc.lookup "_id").getD .undefined)
            then (doc.lookup "_id").getD .undefined
            else .str (gen (i + j)))) := by
  intro addrs
  induction addrs with
  | nil =>
    intro i j heap a doc _ hj _
    simp at hj
  | cons b rest ih =>
    intro i j heap a doc hnd hj hdoc
    have hnd' := List.nodup_cons.mp hnd
    cases j with
    | zero =>
      have hba : b = a := by simpa using hj
      subst hba
      simp only [insertAssignIds]
      rw [hdoc]
      rw [insertAssignIds_frame gen rest (i + 1) _ b hnd'.1]
      exact get?_set_self heap b _ _ hdoc
    | succ j' =>
      have hj' : rest.get? j' = some a := by simpa using hj
      have hba : b ≠ a := by
        intro hc
        subst hc
        exact hnd'.1 (List.get?_mem hj')
      simp only [insertAssignIds]
      have harith : i + 1 + j' = i + (j' + 1) := by omega
      cases hb : heap.get? b with
      | none =>
        rw [← harith]
        exact ih (i + 1) j' heap a doc hnd'.2 hj' hdoc
      | some doc₀ =>
        rw [← harith]
        refine ih (i + 1) j' _ a doc hnd'.2 hj' ?_
        rw [get?_set_ne heap b a _ hba]
        exact hdoc

/-- **C10**: `insert` assigns identifiers by mutating the caller's document
objects in place, before the engine write: a document lacking `_id` carries
the generated UUID at its own heap address afterwards; a document whose
`_id` is truthy is left unchanged; and the collection receives exactly the
post-mutation objects. -/
theorem insert_mutates_in_place (gen : Nat → String) (heap : List JSObj)
    (addrs : List Nat) (coll : List JSObj) (hnd : addrs.Nodup)
    (j a : Nat) (doc : JSObj) (hj : addrs.get? j = some a)
    (hdoc : heap.get? a = some doc) :
    (doc.lookup "_id" = none →
      (insertModel gen heap addrs coll).1.get? a =
        some (doc ++ [("_id", .str (gen j))])) ∧
    (truthy ((doc.lookup "_id").getD .undefined) = true →
      (insertModel gen heap addrs coll).1.get? a = some doc) ∧
    (insertModel gen heap addrs coll).2 =
      coll ++ addrs.filterMap (insertModel gen heap addrs coll).1.get? := by
  refine ⟨?_, ?_, rfl⟩
  · intro hid
    have h := insertAssignIds_get gen addrs 0 j heap a doc hnd hj hdoc
    rw [Nat.zero_add, hid] at h
    have hnm : "_id" ∉ doc.map Prod.fst := by
      intro hm
      obtain ⟨v, hv⟩ := mem_keys_lookup_isSome doc "_id" hm
      rw [hv] at hid
      cases hid
    have h2 : (insertAssignIds gen 0 addrs heap).get? a =
        some (setField doc "_id" (.str (gen j))) := h
    rw [setField_append doc "_id" _ hnm] at h2
    exact h2
  · intro htr
    have h := insertAssignIds_get gen addrs 0 j heap a doc hnd hj hdoc
    rw [if_pos htr] at h
    have hv : ∃ v, doc.lookup "_id" = some v := by
      cases hl : doc.lookup "_id" with
      | none =>
        rw [hl] at htr
        exact absurd htr (by simp [truthy])
      | some v => exact ⟨v, rfl⟩
    obtain ⟨v, hv⟩ := hv
    rw [hv] at h
    simp only [Option.getD_some] at h
    rw [setField_self doc "_id" v hv] at h
    exact h

/-- **C10** witness: a document without `_id` gains the generated identifier
at its own heap slot; one with a truthy `_id` is unchanged. -/
theorem insert_mutates_in_place_witness :
    ((insertModel (fun i => toString i) [[("name", .str "E")]] [0] []).1.get? 0 =
      some ([("name", .str "E")] ++ [("_id", .str "0")])) ∧
    ((insertModel (fun i => toString i) [[("_id", .str "keep")]] [0] []).1.get? 0 =
      some [("_id", .str "keep")]) :=
  ⟨(insert_mutates_in_place (fun i => toString i) [[("name", .str "E")]] [0] []
      (by decide) 0 0 [("name", .str "E")] rfl rfl).1 rfl,
   (insert_mutates_in_place (fun i => toString i) [[("_id", .str "keep")]] [0] []
      (by decide) 0 0 [("_id", .str "keep")] rfl rfl).2.1 rfl⟩
